import Mathlib

/-!
Shallow embedding of `src/mincombo.py` (Python 2).

The program reads a catalog of restaurant menu lines, reduces each
restaurant's menu against the requested items, brute-forces the cheapest
covering selection of bundles, and tracks the global best restaurant.

Modelling conventions:
* a menu line `[cost, item1, item2, ...]` is a `Bundle` (`price` is
  `combo[0]` as a rational, `items` is `combo[1:]`);
* Python `None` is `Option.none`; `float('inf')` is `⊤ : WithTop ℚ`;
* functions whose Python bodies can raise are embedded in
  `Except PyErr`; in particular the expression `menu.length` on lines
  54 and 88 of the source is an attribute access on a Python list,
  which has no `length` attribute and therefore raises
  `AttributeError` unconditionally (the guarded bare `raise` on the
  next line is unreachable).
-/

/-- A menu line `[cost, item1, item2, ...]`: `price` models `combo[0]`
(already converted to a number, as the driver does with `float`), and
`items` models `combo[1:]`. -/
structure Bundle where
  price : ℚ
  items : List String
deriving Repr, DecidableEq, Inhabited

/-- Python runtime failures produced by the embedded functions:
`attributeError` for the `menu.length` attribute access on a list,
`raised` for the bare `raise` statements. -/
inductive PyErr where
  | attributeError
  | raised
deriving Repr, DecidableEq

/-- The expression `l.length` on a Python list: list objects have no
`length` attribute, so the attribute access itself raises
`AttributeError`.  (The code presumably meant `len(l)`.) -/
def pyLength {α : Type} (_l : List α) : Except PyErr Nat :=
  Except.error PyErr.attributeError

/-- `len(list(set(a) & set(b)))`: how many distinct values occur in both
`a` and `b`. -/
def setInterCard (a b : List String) : Nat :=
  (a.dedup.filter (fun x => decide (x ∈ b))).length

/-- Source lines 31-43.  Keeps the combos sharing at least one item with
`items`, collects every item of the kept combos into `flat_menu`, and
returns `none` when the number of distinct requested items found there
differs from `len(items)` (which counts duplicates). -/
def reduce_menu (menu : List Bundle) (items : List String) : Option (List Bundle) :=
  let reduced_menu := menu.filter (fun combo => decide (0 < setInterCard combo.items items))
  let flat_menu := reduced_menu.flatMap (fun combo => combo.items)
  if setInterCard flat_menu items ≠ items.length then
    none
  else
    some reduced_menu

/-- Source lines 52-58.  The comparison `menu.length != item_combo.length`
evaluates `menu.length` first, which raises `AttributeError`; everything
after the first `pyLength` is dead code, kept for structural fidelity. -/
def get_price (menu : List Bundle) (item_combo : List Nat) : Except PyErr ℚ := do
  let ml ← pyLength menu
  let cl ← pyLength item_combo
  if ml ≠ cl then
    throw PyErr.raised
  let price := (List.range item_combo.length).foldl
    (fun acc i => acc + (menu.getD i default).price * (item_combo.getD i 0 : ℚ)) 0
  return price

/-- `itertools.combinations l (k)`: every length-`k` subsequence of `l`,
emitted in lexicographic order of positions, as documented for
`itertools`. -/
def combinations : List Nat → Nat → List (List Nat)
  | _, 0 => [[]]
  | [], _ + 1 => []
  | x :: xs, k + 1 => (combinations xs k).map (fun c => x :: c) ++ combinations xs (k + 1)

/-- `s = [0] * n; for bit in bits: s[bit] = 1`. -/
def bitsToVec (n : Nat) (bits : List Nat) : List Nat :=
  bits.foldl (fun s bit => s.set bit 1) (List.replicate n 0)

/-- Source lines 67-75: for `k in range(n)`, for `bits` in
`itertools.combinations(range(n), k + 1)`, append the 0/1 vector with
ones at `bits`. -/
def get_item_combos (n : Nat) : List (List Nat) :=
  (List.range n).flatMap (fun k => (combinations (List.range n) (k + 1)).map (bitsToVec n))

/-- Source lines 87-103.  As in `get_price`, the length comparison raises
`AttributeError` before anything else runs; the remainder models the
`has_items` dictionary as the list of items of the selected bundles. -/
def is_valid_combo (menu : List Bundle) (item_combo : List Nat) (items : List String) :
    Except PyErr Bool := do
  let ml ← pyLength menu
  let cl ← pyLength item_combo
  if ml ≠ cl then
    throw PyErr.raised
  let marked := (List.range item_combo.length).foldl
    (fun acc x => if 0 < item_combo.getD x 0 then acc ++ (menu.getD x default).items else acc) []
  return items.all (fun item => decide (item ∈ marked))

/-- Source lines 112-129.  Empty menu returns `None`; a single bundle
returns its price with no validation; otherwise every generated
selection vector is validated and priced, starting from
`min_price = float('inf')`, and `min_price` (not `None`) is returned. -/
def get_min_cost (menu : List Bundle) (items : List String) :
    Except PyErr (Option (WithTop ℚ)) := do
  if menu.length = 0 then
    return none
  else if menu.length = 1 then
    return some ((menu.getD 0 default).price : WithTop ℚ)
  else
    let item_combos := get_item_combos menu.length
    let min_price ← item_combos.foldlM
      (fun (acc : WithTop ℚ) item_combo => do
        let valid ← is_valid_combo menu item_combo items
        if valid then
          let combo_price ← get_price menu item_combo
          if (combo_price : WithTop ℚ) < acc then
            return (combo_price : WithTop ℚ)
          else
            return acc
        else
          return acc)
      (⊤ : WithTop ℚ)
    return some min_price

/-- One catalog record: vendor field plus the rest of the line. -/
structure Row where
  vendor : String
  bundle : Bundle
deriving Repr, DecidableEq

/-- The driver's mutable locals (source lines 146-153). -/
structure AggState where
  min_cost : WithTop ℚ
  min_restaurant : Option String
  curr_restaurant : Option String
  menu : List Bundle
deriving Repr, DecidableEq

/-- Source lines 167-169: `if curr_min_cost is not None and
float(curr_min_cost) < float(min_cost)` then the current restaurant
becomes the best, else the best pair is kept. -/
def foldCost (curr : Option String) (best : Option String × WithTop ℚ)
    (curr_min_cost : Option (WithTop ℚ)) : Except PyErr (Option String × WithTop ℚ) :=
  match curr_min_cost with
  | none => pure best
  | some c => if c < best.2 then pure (curr, c) else pure best

/-- Source lines 163-169 (repeated at 177-183): fold one finished
restaurant menu into the running best pair. -/
def checkRestaurant (items : List String) (menu : List Bundle) (curr : Option String)
    (best : Option String × WithTop ℚ) : Except PyErr (Option String × WithTop ℚ) :=
  if 0 < menu.length then
    match reduce_menu menu items with
    | none => pure best
    | some reduced_menu => do
      let curr_min_cost ← get_min_cost reduced_menu items
      foldCost curr best curr_min_cost
  else
    pure best

/-- Loop body of source lines 156-173: on a vendor change flush the
accumulated menu through `checkRestaurant`, then append the current
line's bundle. -/
def mainStep (items : List String) (st : AggState) (row : Row) : Except PyErr AggState := do
  let st ←
    if st.curr_restaurant ≠ some row.vendor then do
      let best ← checkRestaurant items st.menu st.curr_restaurant (st.min_restaurant, st.min_cost)
      pure { st with min_restaurant := best.1, min_cost := best.2,
                     curr_restaurant := some row.vendor, menu := [] }
    else
      pure st
  pure { st with menu := st.menu ++ [row.bundle] }

/-- What the driver prints at the end. -/
inductive MainOut where
  | invalidParams
  | result (r : Option (String × WithTop ℚ))
deriving Repr, DecidableEq

/-- Source lines 132-189 with file I/O and line parsing abstracted into
`rows` (records are already split into vendor field and bundle). -/
def mincombo_main (rows : List Row) (items : List String) : Except PyErr MainOut := do
  if items.length = 0 then
    return MainOut.invalidParams
  let st ← rows.foldlM (mainStep items) (⟨⊤, none, none, []⟩ : AggState)
  let best ← checkRestaurant items st.menu st.curr_restaurant (st.min_restaurant, st.min_cost)
  match best with
  | (none, _) => return MainOut.result none
  | (some v, c) => return MainOut.result (some (v, c))

/-- The set of indices a selection vector selects: the positions holding
flag `1`.  Used to state the enumeration order of `get_item_combos`. -/
def chosenIdx (v : List Nat) : List Nat :=
  (List.range v.length).filter (fun i => decide (v.getD i 0 = 1))

/-- The enumeration order the spec ascribes to the combination
generator: selection vectors appear grouped by an increasing number of
selected bundles, and two vectors selecting equally many bundles appear
in lexicographic order of their selected index combinations. -/
def comboOrder (u v : List Nat) : Prop :=
  u.count 1 < v.count 1 ∨ (u.count 1 = v.count 1 ∧ List.Lex (· < ·) (chosenIdx u) (chosenIdx v))

/-! ### Helper lemmas about `combinations` (the `itertools.combinations` model) -/

theorem mem_combinations {l : List Nat} : ∀ {k : Nat} {c : List Nat},
    c ∈ combinations l k ↔ c.Sublist l ∧ c.length = k := by
  induction l with
  | nil =>
    intro k c
    cases k with
    | zero =>
      simp only [combinations, List.mem_singleton]
      constructor
      · rintro rfl; exact ⟨List.Sublist.refl _, rfl⟩
      · rintro ⟨hs, hl⟩; exact List.eq_nil_of_length_eq_zero hl
    | succ k =>
      simp only [combinations, List.not_mem_nil, false_iff, not_and]
      intro hs hl
      have := List.sublist_nil.mp hs
      subst this
      simp at hl
  | cons x xs ih =>
    intro k c
    cases k with
    | zero =>
      simp only [combinations, List.mem_singleton]
      constructor
      · rintro rfl; exact ⟨List.nil_sublist _, rfl⟩
      · rintro ⟨hs, hl⟩; exact List.eq_nil_of_length_eq_zero hl
    | succ k =>
      simp only [combinations, List.mem_append, List.mem_map]
      constructor
      · rintro (⟨c', hc', rfl⟩ | h)
        · obtain ⟨hs, hl⟩ := ih.mp hc'
          exact ⟨List.Sublist.cons₂ x hs, by simp [hl]⟩
        · obtain ⟨hs, hl⟩ := ih.mp h
          exact ⟨hs.cons x, hl⟩
      · rintro ⟨hs, hl⟩
        rcases List.sublist_cons_iff.mp hs with h | ⟨r, rfl, hr⟩
        · exact Or.inr (ih.mpr ⟨h, hl⟩)
        · exact Or.inl ⟨r, ih.mpr ⟨hr, by simpa using hl⟩, rfl⟩

theorem length_combinations {l : List Nat} : ∀ {k : Nat},
    (combinations l k).length = l.length.choose k := by
  induction l with
  | nil =>
    intro k
    cases k <;> simp [combinations]
  | cons x xs ih =>
    intro k
    cases k with
    | zero => simp [combinations]
    | succ k =>
      simp only [combinations, List.length_append, List.length_map, ih, List.length_cons]
      rw [Nat.choose_succ_succ']

theorem nodup_combinations {l : List Nat} (hl : l.Nodup) : ∀ {k : Nat},
    (combinations l k).Nodup := by
  induction l with
  | nil =>
    intro k
    cases k <;> simp [combinations]
  | cons x xs ih =>
    intro k
    have hx : x ∉ xs := (List.nodup_cons.mp hl).1
    have hxs : xs.Nodup := (List.nodup_cons.mp hl).2
    cases k with
    | zero => simp [combinations]
    | succ k =>
      simp only [combinations]
      apply List.Nodup.append
      · exact (ih hxs).map (fun a b h => by simpa using h)
      · exact ih hxs
      · intro c hc1 hc2
        simp only [List.mem_map] at hc1
        obtain ⟨c', _, rfl⟩ := hc1
        have hs := (mem_combinations.mp hc2).1
        exact hx (hs.subset (List.mem_cons_self x c'))

theorem pairwise_lex_combinations {l : List Nat} (hl : l.Pairwise (· < ·)) : ∀ {k : Nat},
    (combinations l k).Pairwise (List.Lex (· < ·)) := by
  induction l with
  | nil =>
    intro k
    cases k <;> simp [combinations]
  | cons x xs ih =>
    intro k
    have hx : ∀ y ∈ xs, x < y := fun y hy => List.rel_of_pairwise_cons hl hy
    have hxs : xs.Pairwise (· < ·) := List.Pairwise.of_cons hl
    cases k with
    | zero => simp [combinations]
    | succ k =>
      simp only [combinations]
      apply List.pairwise_append.mpr
      refine ⟨?_, ih hxs, ?_⟩
      · exact (ih hxs).map (fun c => x :: c) (fun a b h => List.Lex.cons h)
      · rintro a ha b hb
        simp only [List.mem_map] at ha
        obtain ⟨c', _, rfl⟩ := ha
        obtain ⟨hs, hlen⟩ := mem_combinations.mp hb
        cases b with
        | nil => simp at hlen
        | cons y ys =>
          exact List.Lex.rel (hx y (hs.subset (List.mem_cons_self y ys)))

/-- A sublist of a duplicate-free list is recovered by filtering for
membership in it. -/
theorem filter_mem_of_sublist {s l : List Nat} (h : s.Sublist l) (hl : l.Nodup) :
    l.filter (fun x => decide (x ∈ s)) = s := by
  induction h with
  | slnil => rfl
  | @cons s l₂ a h ih =>
    have ha : a ∉ l₂ := (List.nodup_cons.mp hl).1
    have has : a ∉ s := fun hs => ha (h.subset hs)
    rw [List.filter_cons_of_neg (by simp [has])]
    exact ih (List.nodup_cons.mp hl).2
  | @cons₂ s l₂ a h ih =>
    have ha : a ∉ l₂ := (List.nodup_cons.mp hl).1
    rw [List.filter_cons_of_pos (by simp)]
    congr 1
    have hcong : ∀ x ∈ l₂, (decide (x ∈ a :: s)) = (decide (x ∈ s)) := by
      intro x hx
      have hxa : x ≠ a := fun hxa => ha (hxa ▸ hx)
      simp [List.mem_cons, hxa]
    rw [List.filter_congr hcong, ih (List.nodup_cons.mp hl).2]

/-! ### Helper lemmas about `bitsToVec` -/

theorem length_foldl_set (bits s : List Nat) :
    (bits.foldl (fun s bit => s.set bit 1) s).length = s.length := by
  induction bits generalizing s with
  | nil => rfl
  | cons b bits ih => simp [List.foldl_cons, ih]

theorem length_bitsToVec (n : Nat) (bits : List Nat) : (bitsToVec n bits).length = n := by
  simp [bitsToVec, length_foldl_set]

theorem getElem?_foldl_set (bits s : List Nat) (i : Nat) :
    (bits.foldl (fun s bit => s.set bit 1) s)[i]? =
      if i ∈ bits ∧ i < s.length then some 1 else s[i]? := by
  induction bits generalizing s with
  | nil => simp
  | cons b bits ih =>
    rw [List.foldl_cons, ih, List.length_set]
    by_cases hib : i ∈ bits
    · by_cases hlt : i < s.length
      · simp [hib, hlt]
      · rw [if_neg (by simp [hlt]), if_neg (by simp [hlt]),
          List.getElem?_eq_none (by rw [List.length_set]; exact Nat.le_of_not_lt hlt),
          List.getElem?_eq_none (Nat.le_of_not_lt hlt)]
    · by_cases hieqb : i = b
      · subst hieqb
        by_cases hlt : i < s.length
        · rw [if_neg (by simp [hib]), if_pos (by simp [hlt]), List.getElem?_set_self hlt]
        · rw [if_neg (by simp [hlt]), if_neg (by simp [hlt]),
            List.set_eq_of_length_le (Nat.le_of_not_lt hlt)]
      · rw [if_neg (by simp [hib]), if_neg (by simp [List.mem_cons, hib, hieqb]),
          List.getElem?_set_ne (fun h => hieqb h.symm)]

theorem bitsToVec_eq_map (n : Nat) (bits : List Nat) :
    bitsToVec n bits = (List.range n).map (fun i => if i ∈ bits then 1 else 0) := by
  apply List.ext_getElem?
  intro i
  rw [bitsToVec, getElem?_foldl_set, List.length_replicate]
  by_cases hlt : i < n
  · rw [List.getElem?_map, List.getElem?_range hlt]
    by_cases hib : i ∈ bits <;> simp [hib, hlt]
  · rw [List.getElem?_map, List.getElem?_eq_none (by simpa using Nat.le_of_not_lt hlt),
      List.getElem?_eq_none (by simpa using Nat.le_of_not_lt hlt)]
    simp [hlt]

theorem count_one_bitsToVec {n : Nat} {bits : List Nat} (h : bits.Sublist (List.range n)) :
    (bitsToVec n bits).count 1 = bits.length := by
  rw [bitsToVec_eq_map, List.count_eq_countP, List.countP_map, List.countP_eq_length_filter]
  have hcong : ∀ i ∈ List.range n,
      (((fun v => v == 1) ∘ fun i => if i ∈ bits then 1 else 0) i) = decide (i ∈ bits) := by
    intro i _
    by_cases hib : i ∈ bits <;> simp [hib]
  rw [List.filter_congr hcong, filter_mem_of_sublist h (List.nodup_range n)]

theorem mem_bitsToVec_binary {n : Nat} {bits : List Nat} {b : Nat}
    (hb : b ∈ bitsToVec n bits) : b = 0 ∨ b = 1 := by
  rw [bitsToVec_eq_map] at hb
  obtain ⟨i, _, hi⟩ := List.mem_map.mp hb
  by_cases h : i ∈ bits <;> simp [h] at hi <;> omega

theorem bitsToVec_inj {n : Nat} {b1 b2 : List Nat} (h1 : b1.Sublist (List.range n))
    (h2 : b2.Sublist (List.range n)) (h : bitsToVec n b1 = bitsToVec n b2) : b1 = b2 := by
  have hmem : ∀ i : Nat, i ∈ b1 ↔ i ∈ b2 := by
    intro i
    rw [bitsToVec_eq_map, bitsToVec_eq_map] at h
    constructor
    · intro hi
      have hin : i < n := List.mem_range.mp (h1.subset hi)
      have := congrArg (fun l => l[i]?) h
      simp only [List.getElem?_map, List.getElem?_range hin, Option.map_some] at this
      by_contra hi2
      simp [hi, hi2] at this
    · intro hi
      have hin : i < n := List.mem_range.mp (h2.subset hi)
      have := congrArg (fun l => l[i]?) h
      simp only [List.getElem?_map, List.getElem?_range hin, Option.map_some] at this
      by_contra hi2
      simp [hi, hi2] at this
  have hperm : b1.Perm b2 :=
    (List.perm_ext_iff_of_nodup (h1.nodup (List.nodup_range n))
      (h2.nodup (List.nodup_range n))).mpr hmem
  exact List.eq_of_perm_of_sorted hperm
    ((List.Pairwise.sublist h1 (List.pairwise_lt_range n)).imp Nat.le_of_lt)
    ((List.Pairwise.sublist h2 (List.pairwise_lt_range n)).imp Nat.le_of_lt)

/-! ### Helper lemmas about `get_item_combos` -/

theorem mem_get_item_combos {n : Nat} {v : List Nat} :
    v ∈ get_item_combos n ↔
      ∃ k, k < n ∧ ∃ bits ∈ combinations (List.range n) (k + 1), v = bitsToVec n bits := by
  simp only [get_item_combos, List.mem_flatMap, List.mem_map, List.mem_range]
  constructor
  · rintro ⟨k, hk, bits, hbits, rfl⟩
    exact ⟨k, hk, bits, hbits, rfl⟩
  · rintro ⟨k, hk, bits, hbits, rfl⟩
    exact ⟨k, hk, bits, hbits, rfl⟩

theorem length_get_item_combos (n : Nat) : (get_item_combos n).length = 2 ^ n - 1 := by
  rw [get_item_combos, List.length_flatMap]
  have h1 : List.map (List.length ∘ fun k => (combinations (List.range n) (k + 1)).map
      (bitsToVec n)) (List.range n) = (List.range n).map (fun k => n.choose (k + 1)) := by
    apply List.map_congr_left
    intro k _
    simp [length_combinations]
  rw [h1]
  have h2 : ∀ m : Nat, ((List.range m).map (fun k => n.choose (k + 1))).sum =
      ∑ i ∈ Finset.range m, n.choose (i + 1) := by
    intro m
    induction m with
    | zero => simp
    | succ m ih =>
      rw [List.range_succ, List.map_append, List.sum_append, Finset.sum_range_succ, ih]
      simp
  rw [h2 n]
  have h3 := Nat.sum_range_choose n
  rw [Finset.sum_range_succ'] at h3
  rw [Nat.choose_zero_right] at h3
  omega

theorem shape_get_item_combos {n : Nat} {v : List Nat} (hv : v ∈ get_item_combos n) :
    v.length = n ∧ (∀ b ∈ v, b = 0 ∨ b = 1) ∧ 1 ∈ v := by
  obtain ⟨k, hk, bits, hbits, rfl⟩ := mem_get_item_combos.mp hv
  obtain ⟨hs, hlen⟩ := mem_combinations.mp hbits
  refine ⟨length_bitsToVec n bits, fun b hb => mem_bitsToVec_binary hb, ?_⟩
  have hne : bits ≠ [] := by
    intro h
    rw [h] at hlen
    simp at hlen
  obtain ⟨b, hb⟩ := List.exists_mem_of_ne_nil bits hne
  have hbn : b < n := List.mem_range.mp (hs.subset hb)
  rw [bitsToVec_eq_map]
  exact List.mem_map.mpr ⟨b, List.mem_range.mpr hbn, by simp [hb]⟩

theorem nodup_get_item_combos (n : Nat) : (get_item_combos n).Nodup := by
  rw [get_item_combos]
  apply List.nodup_flatMap.mpr
  constructor
  · intro k _
    apply List.Nodup.map_on ?_ (nodup_combinations (List.nodup_range n))
    intro b1 h1 b2 h2 heq
    exact bitsToVec_inj (mem_combinations.mp h1).1 (mem_combinations.mp h2).1 heq
  · refine (List.pairwise_lt_range n).imp ?_
    intro k1 k2 hlt
    intro v hv1 hv2
    obtain ⟨bits1, hb1, rfl⟩ := List.mem_map.mp hv1
    obtain ⟨bits2, hb2, heq⟩ := List.mem_map.mp hv2
    have c1 : (bitsToVec n bits1).count 1 = k1 + 1 := by
      rw [count_one_bitsToVec (mem_combinations.mp hb1).1, (mem_combinations.mp hb1).2]
    have c2 : (bitsToVec n bits1).count 1 = k2 + 1 := by
      rw [← heq, count_one_bitsToVec (mem_combinations.mp hb2).1, (mem_combinations.mp hb2).2]
    omega

theorem complete_get_item_combos {n : Nat} {v : List Nat} (hlen : v.length = n)
    (hbin : ∀ b ∈ v, b = 0 ∨ b = 1) (hone : 1 ∈ v) : v ∈ get_item_combos n := by
  set bits := (List.range n).filter (fun i => decide (v.getD i 0 = 1)) with hbits_def
  have hmap : (List.range n).map (fun i => v.getD i 0) = v := by
    apply List.ext_getElem (by simp [hlen])
    intro i h1 h2
    simp only [List.getElem_map, List.getElem_range]
    exact List.getD_eq_getElem v 0 h2
  have hcount : bits.length = v.count 1 := by
    rw [List.count_eq_countP]
    conv_rhs => rw [← hmap]
    rw [List.countP_map, hbits_def, ← List.countP_eq_length_filter]
    apply List.countP_congr
    intro i _
    simp [Function.comp]
  have hm1 : 1 ≤ v.count 1 := List.count_pos_iff.mpr hone
  have hmn : v.count 1 ≤ n := hlen ▸ List.count_le_length 1 v
  have hbits_mem : bits ∈ combinations (List.range n) (v.count 1) :=
    mem_combinations.mpr ⟨List.filter_sublist _, hcount⟩
  have hveq : bitsToVec n bits = v := by
    rw [bitsToVec_eq_map]
    apply List.ext_getElem (by simp [hlen])
    intro i h1 h2
    simp only [List.getElem_map, List.getElem_range]
    by_cases hib : i ∈ bits
    · have hgd : v.getD i 0 = 1 := by
        have := (List.mem_filter.mp hib).2
        simpa using this
      rw [if_pos hib, ← List.getD_eq_getElem v 0 h2, hgd]
    · have hir : i ∈ List.range n := by
        simp only [List.length_map, List.length_range] at h1
        exact List.mem_range.mpr h1
      have hgd : ¬(v.getD i 0 = 1) := by
        intro hgd
        exact hib (List.mem_filter.mpr ⟨hir, by simpa using hgd⟩)
      rw [List.getD_eq_getElem v 0 h2] at hgd
      have := hbin _ (List.getElem_mem h2)
      rw [if_neg hib, ← List.getD_eq_getElem v 0 h2]
      rw [List.getD_eq_getElem v 0 h2]
      omega
  apply mem_get_item_combos.mpr
  refine ⟨v.count 1 - 1, by omega, bits, ?_, hveq.symm⟩
  have hsucc : v.count 1 - 1 + 1 = v.count 1 := by omega
  rw [hsucc]
  exact hbits_mem

theorem chosenIdx_bitsToVec {n : Nat} {bits : List Nat} (h : bits.Sublist (List.range n)) :
    chosenIdx (bitsToVec n bits) = bits := by
  rw [chosenIdx, length_bitsToVec]
  have hcong : ∀ i ∈ List.range n,
      decide ((bitsToVec n bits).getD i 0 = 1) = decide (i ∈ bits) := by
    intro i hi
    have hin : i < n := List.mem_range.mp hi
    rw [bitsToVec_eq_map, List.getD_eq_getElem _ 0 (by simp [hin])]
    simp only [List.getElem_map, List.getElem_range]
    by_cases hib : i ∈ bits <;> simp [hib]
  rw [List.filter_congr hcong, filter_mem_of_sublist h (List.nodup_range n)]

theorem pairwise_order_get_item_combos (n : Nat) :
    (get_item_combos n).Pairwise comboOrder := by
  rw [get_item_combos]
  apply List.pairwise_flatMap.mpr
  constructor
  · intro k _
    apply List.pairwise_map.mpr
    apply List.Pairwise.imp_of_mem ?_ (pairwise_lex_combinations (List.pairwise_lt_range n))
    intro b1 b2 hm1 hm2 hlex
    right
    have hs1 := (mem_combinations.mp hm1).1
    have hs2 := (mem_combinations.mp hm2).1
    constructor
    · rw [count_one_bitsToVec hs1, count_one_bitsToVec hs2,
        (mem_combinations.mp hm1).2, (mem_combinations.mp hm2).2]
    · rw [chosenIdx_bitsToVec hs1, chosenIdx_bitsToVec hs2]
      exact hlex
  · refine (List.pairwise_lt_range n).imp ?_
    intro k1 k2 hlt
    intro u hu v hv
    obtain ⟨bits1, hb1, rfl⟩ := List.mem_map.mp hu
    obtain ⟨bits2, hb2, rfl⟩ := List.mem_map.mp hv
    left
    rw [count_one_bitsToVec (mem_combinations.mp hb1).1, (mem_combinations.mp hb1).2,
      count_one_bitsToVec (mem_combinations.mp hb2).1, (mem_combinations.mp hb2).2]
    omega

/-- C5: for every n, `get_item_combos n` returns exactly `2 ^ n - 1`
selection vectors of length `n`, with no duplicates, containing every
non-zero 0/1 vector of length `n` (i.e. every combination of `k` chosen
indices for `k = 1..n`), grouped by an increasing number of chosen
indices and, within a group, in lexicographic order of the chosen index
combination (`comboOrder`); for `n = 0` the `2 ^ 0 - 1 = 0` count gives
the empty sequence. -/
theorem get_item_combos_spec (n : Nat) :
    (get_item_combos n).length = 2 ^ n - 1 ∧
    (∀ v ∈ get_item_combos n, v.length = n ∧ (∀ b ∈ v, b = 0 ∨ b = 1) ∧ 1 ∈ v) ∧
    (get_item_combos n).Nodup ∧
    (∀ v : List Nat, v.length = n → (∀ b ∈ v, b = 0 ∨ b = 1) → 1 ∈ v →
      v ∈ get_item_combos n) ∧
    (get_item_combos n).Pairwise comboOrder :=
  ⟨length_get_item_combos n, fun _ hv => shape_get_item_combos hv, nodup_get_item_combos n,
    fun _ h1 h2 h3 => complete_get_item_combos h1 h2 h3, pairwise_order_get_item_combos n⟩

/-- Witness for C5 at `n = 3`: the count is `7` and the vector `[1, 0, 1]`
is enumerated. -/
theorem get_item_combos_spec_witness :
    (get_item_combos 3).length = 2 ^ 3 - 1 ∧ [1, 0, 1] ∈ get_item_combos 3 :=
  ⟨(get_item_combos_spec 3).1,
    (get_item_combos_spec 3).2.2.2.1 [1, 0, 1] (by decide) (by decide) (by decide)⟩

/-! ### Helper lemmas about `setInterCard` and `reduce_menu` -/

theorem setInterCard_eq_card (a b : List String) :
    setInterCard a b = (a.toFinset ∩ b.toFinset).card := by
  rw [setInterCard]
  have h1 : (a.dedup.filter (fun x => decide (x ∈ b))).Nodup :=
    a.nodup_dedup.filter _
  rw [← List.toFinset_card_of_nodup h1, List.toFinset_filter]
  congr 1
  ext x
  simp [Finset.mem_filter, Finset.mem_inter, List.mem_toFinset, List.mem_dedup]

theorem setInterCard_pos {a b : List String} :
    0 < setInterCard a b ↔ ∃ x, x ∈ a ∧ x ∈ b := by
  rw [setInterCard_eq_card, Finset.card_pos]
  constructor
  · rintro ⟨x, hx⟩
    rw [Finset.mem_inter, List.mem_toFinset, List.mem_toFinset] at hx
    exact ⟨x, hx⟩
  · rintro ⟨x, hx1, hx2⟩
    exact ⟨x, Finset.mem_inter.mpr ⟨List.mem_toFinset.mpr hx1, List.mem_toFinset.mpr hx2⟩⟩

theorem reduce_menu_def (menu : List Bundle) (items : List String) :
    reduce_menu menu items =
      if setInterCard ((menu.filter (fun combo => decide (0 < setInterCard combo.items
          items))).flatMap (fun combo => combo.items)) items ≠ items.length then
        none
      else
        some (menu.filter (fun combo => decide (0 < setInterCard combo.items items))) := rfl

theorem mem_flat_menu_iff {menu : List Bundle} {items : List String} {i : String}
    (hi : i ∈ items) :
    (i ∈ (menu.filter (fun combo => decide (0 < setInterCard combo.items
        items))).flatMap (fun combo => combo.items)) ↔ ∃ b ∈ menu, i ∈ b.items := by
  rw [List.mem_flatMap]
  constructor
  · rintro ⟨b, hb, hbi⟩
    exact ⟨b, (List.mem_filter.mp hb).1, hbi⟩
  · rintro ⟨b, hb, hbi⟩
    refine ⟨b, List.mem_filter.mpr ⟨hb, ?_⟩, hbi⟩
    simpa using setInterCard_pos.mpr ⟨i, hbi, hi⟩

theorem setInterCard_eq_length_iff {flat items : List String} (hnd : items.Nodup) :
    setInterCard flat items = items.length ↔ ∀ i ∈ items, i ∈ flat := by
  rw [setInterCard_eq_card]
  constructor
  · intro h i hi
    have hsub : flat.toFinset ∩ items.toFinset ⊆ items.toFinset := Finset.inter_subset_right
    have heq : flat.toFinset ∩ items.toFinset = items.toFinset := by
      apply Finset.eq_of_subset_of_card_le hsub
      rw [h, List.toFinset_card_of_nodup hnd]
    have : i ∈ flat.toFinset ∩ items.toFinset := by
      rw [heq]
      exact List.mem_toFinset.mpr hi
    exact List.mem_toFinset.mp (Finset.mem_inter.mp this).1
  · intro h
    have heq : flat.toFinset ∩ items.toFinset = items.toFinset := by
      apply Finset.inter_eq_right.mpr
      intro i hi
      exact List.mem_toFinset.mpr (h i (List.mem_toFinset.mp hi))
    rw [heq, List.toFinset_card_of_nodup hnd]

/-- C2: for every menu and non-empty duplicate-free request,
`reduce_menu` returns `none` exactly when some requested item occurs in
no bundle of the menu; and when it returns a reduced menu, every
requested item occurs in some bundle of that reduced menu. -/
theorem reduce_menu_spec (menu : List Bundle) (items : List String)
    (_hne : items ≠ []) (hnd : items.Nodup) :
    (reduce_menu menu items = none ↔ ∃ i ∈ items, ∀ b ∈ menu, i ∉ b.items) ∧
    (∀ reduced, reduce_menu menu items = some reduced →
      ∀ i ∈ items, ∃ b ∈ reduced, i ∈ b.items) := by
  constructor
  · rw [reduce_menu_def]
    by_cases h : setInterCard ((menu.filter (fun combo => decide (0 < setInterCard combo.items
        items))).flatMap (fun combo => combo.items)) items = items.length
    · rw [if_neg (by simpa using h)]
      constructor
      · intro hcontra
        exact absurd hcontra (by simp)
      · rintro ⟨i, hi, hno⟩
        rw [setInterCard_eq_length_iff hnd] at h
        obtain ⟨b, hb, hbi⟩ := (mem_flat_menu_iff hi).mp (h i hi)
        exact (hno b hb hbi).elim
    · rw [if_pos (by simpa using h)]
      constructor
      · intro _
        rw [setInterCard_eq_length_iff hnd] at h
        push_neg at h
        obtain ⟨i, hi, hflat⟩ := h
        exact ⟨i, hi, fun b hb hbi => hflat ((mem_flat_menu_iff hi).mpr ⟨b, hb, hbi⟩)⟩
      · intro _
        rfl
  · intro reduced hred i hi
    rw [reduce_menu_def] at hred
    by_cases h : setInterCard ((menu.filter (fun combo => decide (0 < setInterCard combo.items
        items))).flatMap (fun combo => combo.items)) items = items.length
    · rw [if_neg (by simpa using h)] at hred
      rw [setInterCard_eq_length_iff hnd] at h
      obtain ⟨b, hb, hbi⟩ := List.mem_flatMap.mp (h i hi)
      injection hred with hred
      exact ⟨b, hred ▸ hb, hbi⟩
    · rw [if_pos (by simpa using h)] at hred
      exact absurd hred (by simp)

/-- Witness for C2 with a two-bundle menu and the request
`["coffee", "apples"]`: reduction succeeds (the `none` case is refuted)
and each requested item is covered in the reduced menu. -/
theorem reduce_menu_spec_witness :
    (reduce_menu [⟨5, ["coffee"]⟩, ⟨3, ["apples"]⟩] ["coffee", "apples"] = none ↔
      ∃ i ∈ ["coffee", "apples"], ∀ b ∈ [(⟨5, ["coffee"]⟩ : Bundle), ⟨3, ["apples"]⟩],
        i ∉ b.items) ∧
    (∀ reduced, reduce_menu [⟨5, ["coffee"]⟩, ⟨3, ["apples"]⟩] ["coffee", "apples"] =
        some reduced → ∀ i ∈ ["coffee", "apples"], ∃ b ∈ reduced, i ∈ b.items) :=
  reduce_menu_spec [⟨5, ["coffee"]⟩, ⟨3, ["apples"]⟩] ["coffee", "apples"]
    (by decide) (by decide)

/-! ### Duplicate requests force infeasibility (C10 helpers) -/

theorem dedup_length_lt_of_not_nodup {items : List String} (hdup : ¬items.Nodup) :
    items.dedup.length < items.length := by
  have hsub : items.dedup.Sublist items := List.dedup_sublist items
  have hle : items.dedup.length ≤ items.length := hsub.length_le
  rcases Nat.lt_or_ge items.dedup.length items.length with h | h
  · exact h
  · exfalso
    have heq : items.dedup = items := hsub.eq_of_length (Nat.le_antisymm hle h)
    exact hdup (heq ▸ items.nodup_dedup)

theorem setInterCard_le_dedup_length (a items : List String) :
    setInterCard a items ≤ items.dedup.length := by
  rw [setInterCard_eq_card, ← List.toFinset_card_of_nodup items.nodup_dedup]
  apply Finset.card_le_card
  intro x hx
  have := (Finset.mem_inter.mp hx).2
  rw [List.mem_toFinset] at this
  rw [List.mem_toFinset]
  exact List.mem_dedup.mpr this

theorem reduce_menu_dup_none {items : List String} (hdup : ¬items.Nodup)
    (menu : List Bundle) : reduce_menu menu items = none := by
  rw [reduce_menu_def]
  rw [if_pos]
  intro h
  have h1 := setInterCard_le_dedup_length ((menu.filter (fun combo =>
    decide (0 < setInterCard combo.items items))).flatMap (fun combo => combo.items)) items
  have h2 := dedup_length_lt_of_not_nodup hdup
  omega

theorem checkRestaurant_reduce_none {items : List String} {menu : List Bundle}
    {curr : Option String} {best : Option String × WithTop ℚ}
    (h : reduce_menu menu items = none) :
    checkRestaurant items menu curr best = Except.ok best := by
  unfold checkRestaurant
  rw [h]
  split <;> rfl

theorem mainStep_dup_preserves {items : List String} (hdup : ¬items.Nodup)
    (st : AggState) (row : Row) :
    ∃ st' : AggState, mainStep items st row = Except.ok st' ∧
      st'.min_restaurant = st.min_restaurant ∧ st'.min_cost = st.min_cost := by
  by_cases h : st.curr_restaurant ≠ some row.vendor
  · refine ⟨⟨st.min_cost, st.min_restaurant, some row.vendor, [row.bundle]⟩, ?_, rfl, rfl⟩
    unfold mainStep
    rw [if_pos h, checkRestaurant_reduce_none (reduce_menu_dup_none hdup st.menu)]
    rfl
  · refine ⟨⟨st.min_cost, st.min_restaurant, st.curr_restaurant, st.menu ++ [row.bundle]⟩,
      ?_, rfl, rfl⟩
    unfold mainStep
    rw [if_neg h]
    rfl

theorem foldlM_mainStep_dup {items : List String} (hdup : ¬items.Nodup) :
    ∀ (rows : List Row) (st : AggState),
      ∃ st' : AggState, List.foldlM (mainStep items) st rows = Except.ok st' ∧
        st'.min_restaurant = st.min_restaurant ∧ st'.min_cost = st.min_cost := by
  intro rows
  induction rows with
  | nil => exact fun st => ⟨st, rfl, rfl, rfl⟩
  | cons row rows ih =>
    intro st
    obtain ⟨st1, h1, h2, h3⟩ := mainStep_dup_preserves hdup st row
    obtain ⟨st2, h4, h5, h6⟩ := ih st1
    refine ⟨st2, ?_, by rw [h5, h2], by rw [h6, h3]⟩
    rw [List.foldlM_cons, h1]
    exact h4

/-- C10: the feasibility check of `reduce_menu` compares the distinct
requested items found against `len(items)` counting duplicates, so any
request list with a duplicated item makes `reduce_menu` return `None`
for every menu — even one whose bundles contain every requested item —
and the driver, which passes `sys.argv[2:]` through without
deduplication, then reports no result for every catalog. -/
theorem reduce_menu_dup_spec {items : List String} (hdup : ¬items.Nodup) :
    (∀ menu : List Bundle, reduce_menu menu items = none) ∧
    (∀ rows : List Row, mincombo_main rows items = Except.ok (MainOut.result none)) := by
  constructor
  · exact reduce_menu_dup_none hdup
  · intro rows
    have hne : items.length ≠ 0 := by
      intro h
      rw [List.length_eq_zero] at h
      exact hdup (h ▸ List.nodup_nil)
    unfold mincombo_main
    rw [if_neg hne]
    obtain ⟨st', h1, h2, h3⟩ :=
      foldlM_mainStep_dup hdup rows (⟨⊤, none, none, []⟩ : AggState)
    rw [h1]
    show (checkRestaurant items st'.menu st'.curr_restaurant
        (st'.min_restaurant, st'.min_cost) >>= fun best =>
        match best with
        | (none, _) => pure (MainOut.result none)
        | (some v, c) => pure (MainOut.result (some (v, c)))) = Except.ok (MainOut.result none)
    rw [checkRestaurant_reduce_none (reduce_menu_dup_none hdup st'.menu), h2]
    rfl

/-- Witness for C10 at the duplicated request `["coffee", "coffee"]`,
with a menu that does contain `"coffee"`. -/
theorem reduce_menu_dup_spec_witness :
    reduce_menu [⟨5, ["coffee"]⟩] ["coffee", "coffee"] = none ∧
    mincombo_main [⟨"A", ⟨5, ["coffee"]⟩⟩] ["coffee", "coffee"] =
      Except.ok (MainOut.result none) :=
  ⟨(reduce_menu_dup_spec (by decide)).1 [⟨5, ["coffee"]⟩],
    (reduce_menu_dup_spec (by decide)).2 [⟨"A", ⟨5, ["coffee"]⟩⟩]⟩

/-! ### Claim theorems: single-bundle fast path and crash evaluations -/

/-- C8: for a menu of exactly one bundle, `get_min_cost` returns that
bundle's price directly, for every request — no coverage validation is
performed (the theorem holds even for requests the bundle does not
cover). -/
theorem get_min_cost_single (b : Bundle) (items : List String) :
    get_min_cost [b] items = Except.ok (some (b.price : WithTop ℚ)) := rfl

/-- C1 evaluation: on the two-bundle reduced menu
`[[5, coffee], [3, apples]]` and the request `[coffee, apples]` the
minimum covering price is `8`, but `get_min_cost` raises
`AttributeError` (from the `menu.length` access in `is_valid_combo`)
instead of returning any price. -/
theorem get_min_cost_two_bundles_crash :
    get_min_cost [⟨5, ["coffee"]⟩, ⟨3, ["apples"]⟩] ["coffee", "apples"] =
      Except.error PyErr.attributeError := rfl

/-- C3 evaluation: `get_price` and `is_valid_combo` raise
`AttributeError` even when the selection vector's length equals the
menu's length (first two conjuncts), and raise the same
`AttributeError` — not the guarded `raise` — when the lengths differ
(last two conjuncts): the guard `menu.length != item_combo.length` is
itself the raising expression. -/
theorem length_guard_always_raises :
    get_price [⟨5, ["coffee"]⟩] [1] = Except.error PyErr.attributeError ∧
    is_valid_combo [⟨5, ["coffee"]⟩] [1] ["coffee"] = Except.error PyErr.attributeError ∧
    get_price [⟨5, ["coffee"]⟩] [1, 0] = Except.error PyErr.attributeError ∧
    is_valid_combo [⟨5, ["coffee"]⟩] [1, 0] ["coffee"] = Except.error PyErr.attributeError :=
  ⟨rfl, rfl, rfl, rfl⟩

/-- C4 evaluation: on a same-length menu and selection vector whose
selected bundle contains the single requested item, `is_valid_combo`
raises `AttributeError` instead of returning `True`. -/
theorem is_valid_combo_crash :
    is_valid_combo [⟨2, ["tea"]⟩, ⟨4, ["milk"]⟩] [1, 0] ["tea"] =
      Except.error PyErr.attributeError := rfl

/-- C6 evaluation: the empty-menu case does return `None`
(first conjunct), but on a two-bundle menu where no selection can cover
the request, `get_min_cost` raises `AttributeError` at the first
validation — and had the length guard worked as intended it would have
returned `float('inf')`, not `None`. -/
theorem get_min_cost_absence_marker :
    get_min_cost [] ["burger"] = Except.ok none ∧
    get_min_cost [⟨5, ["pizza"]⟩, ⟨3, ["soda"]⟩] ["burger"] =
      Except.error PyErr.attributeError :=
  ⟨rfl, rfl⟩

/-- C9 evaluation: `get_price` on the selection `[1, 1]` over the menu
`[[5, coffee], [3, apples]]` should by the claim return the sum `8`,
but raises `AttributeError`. -/
theorem get_price_crash_on_sum :
    get_price [⟨5, ["coffee"]⟩, ⟨3, ["apples"]⟩] [1, 1] =
      Except.error PyErr.attributeError := rfl

/-! ### The global aggregator's update rule (C7) -/

/-- C7: when `checkRestaurant` (the aggregator body run once per
finished vendor menu) completes, the running best pair is replaced
exactly when the vendor's menu reduces successfully and its minimum
cost is a value strictly below the current best cost (first conjunct);
when it is, the new best is this vendor with that cost (second
conjunct); when the cost is not strictly smaller — in particular on a
tie in minimum cost — the previously stored vendor, the one
encountered first, is kept (third conjunct). -/
theorem checkRestaurant_update_iff {items : List String} {menu : List Bundle}
    {curr : Option String} {best best' : Option String × WithTop ℚ}
    (h : checkRestaurant items menu curr best = Except.ok best') :
    (best' ≠ best ↔ ∃ reduced c, reduce_menu menu items = some reduced ∧
        get_min_cost reduced items = Except.ok (some c) ∧ c < best.2) ∧
    (∀ reduced c, reduce_menu menu items = some reduced →
        get_min_cost reduced items = Except.ok (some c) → c < best.2 → best' = (curr, c)) ∧
    (∀ reduced c, reduce_menu menu items = some reduced →
        get_min_cost reduced items = Except.ok (some c) → ¬c < best.2 → best' = best) := by
  by_cases hm : 0 < menu.length
  · unfold checkRestaurant at h
    rw [if_pos hm] at h
    cases hr : reduce_menu menu items with
    | none =>
      rw [hr] at h
      have h4 : (Except.ok best : Except PyErr (Option String × WithTop ℚ)) =
          Except.ok best' := h
      have hbb : best = best' := by injection h4
      subst hbb
      refine ⟨⟨fun hne => absurd rfl hne, ?_⟩, ?_, ?_⟩
      · rintro ⟨r, c, h1, _, _⟩
        simp at h1
      · intro r c h1 _ _
        simp at h1
      · intro r c h1 _ _
        rfl
    | some reduced0 =>
      rw [hr] at h
      have h2 : (get_min_cost reduced0 items >>= foldCost curr best) = Except.ok best' := h
      cases hc : get_min_cost reduced0 items with
      | error e =>
        rw [hc] at h2
        have h3 : (Except.error e : Except PyErr (Option String × WithTop ℚ)) =
            Except.ok best' := h2
        exact Except.noConfusion h3
      | ok cmc =>
        rw [hc] at h2
        have h3 : foldCost curr best cmc = Except.ok best' := h2
        cases cmc with
        | none =>
          have h4 : (Except.ok best : Except PyErr (Option String × WithTop ℚ)) =
              Except.ok best' := h3
          have hbb : best = best' := by injection h4
          subst hbb
          refine ⟨⟨fun hne => absurd rfl hne, ?_⟩, ?_, ?_⟩
          · rintro ⟨r, c, h1, hgc, _⟩
            injection h1 with h1
            subst h1
            rw [hc] at hgc
            simp at hgc
          · intro r c h1 hgc _
            injection h1 with h1
            subst h1
            rw [hc] at hgc
            simp at hgc
          · intro r c h1 hgc _
            rfl
        | some c0 =>
          have h4 : (if c0 < best.2 then
                (Except.ok (curr, c0) : Except PyErr (Option String × WithTop ℚ))
              else Except.ok best) = Except.ok best' := h3
          by_cases hlt : c0 < best.2
          · rw [if_pos hlt] at h4
            have hbb : (curr, c0) = best' := by injection h4
            subst hbb
            refine ⟨⟨fun _ => ⟨reduced0, c0, rfl, hc, hlt⟩, fun _ heq => ?_⟩, ?_, ?_⟩
            · have h5 : c0 = best.2 := congrArg Prod.snd heq
              rw [h5] at hlt
              exact lt_irrefl _ hlt
            · intro r c h1 hgc _
              injection h1 with h1
              subst h1
              rw [hc] at hgc
              injection hgc with hgc
              injection hgc with hgc
              rw [hgc]
            · intro r c h1 hgc h5
              injection h1 with h1
              subst h1
              rw [hc] at hgc
              injection hgc with hgc
              injection hgc with hgc
              rw [← hgc] at h5
              exact absurd hlt h5
          · rw [if_neg hlt] at h4
            have hbb : best = best' := by injection h4
            subst hbb
            refine ⟨⟨fun hne => absurd rfl hne, ?_⟩, ?_, ?_⟩
            · rintro ⟨r, c, h1, hgc, h5⟩
              injection h1 with h1
              subst h1
              rw [hc] at hgc
              injection hgc with hgc
              injection hgc with hgc
              rw [← hgc] at h5
              exact absurd h5 hlt
            · intro r c h1 hgc h5
              injection h1 with h1
              subst h1
              rw [hc] at hgc
              injection hgc with hgc
              injection hgc with hgc
              rw [← hgc] at h5
              exact absurd h5 hlt
            · intro r c h1 hgc h5
              rfl
  · have hmenu : menu = [] := List.length_eq_zero.mp (Nat.eq_zero_of_not_pos hm)
    subst hmenu
    unfold checkRestaurant at h
    rw [if_neg hm] at h
    have h4 : (Except.ok best : Except PyErr (Option String × WithTop ℚ)) =
        Except.ok best' := h
    have hbb : best = best' := by injection h4
    subst hbb
    have hno : ∀ (r : List Bundle) (c : WithTop ℚ), reduce_menu [] items = some r →
        get_min_cost r items = Except.ok (some c) → False := by
      intro r c h1 hgc
      rw [reduce_menu_def] at h1
      split at h1
      · exact Option.noConfusion h1
      · injection h1 with h1
        subst h1
        have h6 : (Except.ok (none : Option (WithTop ℚ)) : Except PyErr _) =
            Except.ok (some c) := hgc
        injection h6 with h6
        simp at h6
    refine ⟨⟨fun hne => absurd rfl hne, ?_⟩, ?_, ?_⟩
    · rintro ⟨r, c, h1, hgc, _⟩
      exact (hno r c h1 hgc).elim
    · intro r c h1 hgc _
      exact (hno r c h1 hgc).elim
    · intro r c h1 hgc _
      rfl

/-- Witness for C7: with request `["a"]`, the single-bundle vendor
`"A"` at price `5` replaces the initial `(None, inf)` best, and the
update-iff instance evaluates accordingly. -/
theorem checkRestaurant_update_iff_witness :
    (((some "A", ((5 : ℚ) : WithTop ℚ)) : Option String × WithTop ℚ) ≠ (none, ⊤)) ↔
      ∃ reduced c, reduce_menu [⟨5, ["a"]⟩] ["a"] = some reduced ∧
        get_min_cost reduced ["a"] = Except.ok (some c) ∧ c < (⊤ : WithTop ℚ) :=
  (@checkRestaurant_update_iff ["a"] [⟨5, ["a"]⟩] (some "A")
    ((none : Option String), (⊤ : WithTop ℚ))
    (some "A", ((5 : ℚ) : WithTop ℚ)) rfl).1
